import Mathlib

/- Verification development for `cleanup.py`: a directory-walking text
processor that strips comments from recognized web-source files and writes a
relative-path header comment as the new first line.

Modelling conventions:
- Python `str` values are `List Char` (`Text`).
- Paths are their `pathlib` component lists (`PyPath`).
- The two compiled regex shapes are modelled by explicit scanners with the
  exact semantics of the corresponding `re.sub` call on those patterns:
  `subBlock` for the DOTALL non-greedy block patterns (`<!--.*?-->`,
  `/\*.*?\*/`) and `subLine` for the MULTILINE `(?<!:)//.*?$` pattern.
- Filesystem behaviour is an oracle per file (`FileEnv`): the outcome of each
  decode attempt and whether a write-back would succeed.  The tree walk is a
  fold over the `rglob` enumeration, each entry an `Item`.
- Log lines are recorded as `LogEvent` values (their kind and offending path);
  the purely informational banner prints of `process_directory` and the exact
  message texts are not modelled. -/

namespace Cleanup

/-- Text: a Python `str` as its list of characters. -/
abbrev Text := List Char

/-- Index of the leftmost occurrence of the literal pattern `p` in `s`
(`None` when `p` never occurs), as in `re` left-to-right scanning. -/
def findSub (p : Text) : Text → Option Nat
  | [] => if p.isPrefixOf ([] : Text) then some 0 else none
  | c :: t => if p.isPrefixOf (c :: t) then some 0 else (findSub p t).map (· + 1)

/-- One `re.sub(pat, '', s)` pass for a DOTALL non-greedy block pattern
`o .*? c`: repeatedly delete from each leftmost occurrence of `o` to the end
of the nearest following occurrence of `c`; matches are non-overlapping and
scanning resumes after each deleted span.  Returns the resulting text and the
absolute half-open spans `[start, stop)` deleted from the input.  `fuel` only
drives the recursion (each step deletes at least one character for the
nonempty delimiters used here); `subBlockRun` supplies `s.length`. -/
def subBlockF (o c : Text) : Nat → Text → Text × List (Nat × Nat)
  | 0, s => (s, [])
  | fuel + 1, s =>
    match findSub o s with
    | none => (s, [])
    | some i =>
      match findSub c (s.drop (i + o.length)) with
      | none => (s, [])
      | some j =>
        let e := i + o.length + (j + c.length)
        let r := subBlockF o c fuel (s.drop e)
        (s.take i ++ r.1, (i, e) :: r.2.map (fun ab => (ab.1 + e, ab.2 + e)))

def subBlockRun (o c s : Text) : Text × List (Nat × Nat) := subBlockF o c s.length s

/-- The text produced by one block-comment substitution pass. -/
def subBlock (o c s : Text) : Text := (subBlockRun o c s).1

/-- The spans the block-comment pass deletes from its input. -/
def subBlockSpans (o c s : Text) : List (Nat × Nat) := (subBlockRun o c s).2

/-- Match trigger of the `.js` single-line pattern `(?<!:)//.*?$` (MULTILINE):
a match starts at a `//` not immediately preceded by a colon (`prev` is the
character before the scan position, the lookbehind context). -/
def jsLineTrigger (prev : Option Char) (c : Char) (rest : Text) : Bool :=
  c == '/' && rest.head? == some '/' && prev != some ':'

/-- Scanner for `re.sub(r'(?<!:)//.*?$', '', s, re.MULTILINE)`: on a trigger,
characters up to (but not including) the next newline are deleted; `inComment`
is true while inside a match being deleted. -/
def subLineGo (prev : Option Char) (inComment : Bool) : Text → Text
  | [] => []
  | ch :: rest =>
    if inComment then
      if ch == '\n' then ch :: subLineGo (some ch) false rest
      else subLineGo prev true rest
    else if jsLineTrigger prev ch rest then subLineGo prev true rest
    else ch :: subLineGo (some ch) false rest

/-- The text produced by the `.js` line-comment substitution pass. -/
def subLine (s : Text) : Text := subLineGo none false s

/-- Characters for which Python `str.isspace()` holds (stripped by
`str.strip()` / `str.lstrip()` with no arguments). -/
def isPySpace (c : Char) : Bool :=
  c == ' ' || c == '\t' || c == '\n' || c == '\r' || c == '\x0b' || c == '\x0c' ||
  c == '\x1c' || c == '\x1d' || c == '\x1e' || c == '\x1f' || c == '\x85' ||
  c == '\xa0' || c == '\u1680' || ('\u2000' ≤ c && c ≤ '\u200a') ||
  c == '\u2028' || c == '\u2029' || c == '\u202f' || c == '\u205f' || c == '\u3000'

/-- Python `str.lstrip()`. -/
def pyLstrip (s : Text) : Text := s.dropWhile isPySpace

/-- Python `str.rstrip()`. -/
def pyRstrip (s : Text) : Text := (s.reverse.dropWhile isPySpace).reverse

/-- Python `str.strip()`. -/
def pyStrip (s : Text) : Text := pyRstrip (pyLstrip s)

/-- `<!--` -/
def hOpen : Text := ['<', '!', '-', '-']
/-- `-->` -/
def hClose : Text := ['-', '-', '>']
/-- `/*` -/
def bOpen : Text := ['/', '*']
/-- `*/` -/
def bClose : Text := ['*', '/']

/-- `COMMENT_REGEX`: the per-extension ordered list of substitution passes
(cleanup.py:13-20).  `.html`: `<!--.*?-->` DOTALL; `.css`: `/\*.*?\*/` DOTALL;
`.js`: the block pass then `(?<!:)//.*?$` MULTILINE. -/
def COMMENT_REGEX (ext : String) : Option (List (Text → Text)) :=
  if ext = ".html" then some [subBlock hOpen hClose]
  else if ext = ".css" then some [subBlock bOpen bClose]
  else if ext = ".js" then some [subBlock bOpen bClose, subLine]
  else none

/-- `HEADER_COMMENT_FORMAT` (cleanup.py:23-27): single-line comment template
per extension, with one placeholder for the path string. -/
def HEADER_COMMENT_FORMAT (ext : String) : Option (Text → Text) :=
  if ext = ".html" then some (fun p => hOpen ++ [' '] ++ p ++ [' '] ++ hClose)
  else if ext = ".css" then some (fun p => bOpen ++ [' '] ++ p ++ [' '] ++ bClose)
  else if ext = ".js" then some (fun p => bOpen ++ [' '] ++ p ++ [' '] ++ bClose)
  else none

/-- `TARGET_EXTENSIONS = tuple(COMMENT_REGEX.keys())`. -/
def TARGET_EXTENSIONS : List String := [".html", ".css", ".js"]

/-- `SKIP_DIRS` (cleanup.py:33-36). -/
def SKIP_DIRS : List String :=
  [".git", ".vscode", "node_modules", "__pycache__", "venv", ".venv", "dist",
   "build", "assets"]

/-- `clean_content` (cleanup.py:72-79): apply the extension's substitution
passes in order; unknown extensions are returned unchanged. -/
def clean_content (content : Text) (file_extension : String) : Text :=
  match COMMENT_REGEX file_extension with
  | some l => l.foldl (fun acc f => f acc) content
  | none => content

/-- A path as its `pathlib` component list (`Path.parts`). -/
abbrev PyPath := List String

/-- `Path.name`: the final component. -/
def pyName (p : PyPath) : String := p.getLastD ""

/-- Index of the last `.` in a name (`str.rfind('.')` when it occurs). -/
def rfindDot : List Char → Option Nat
  | [] => none
  | c :: t =>
    match rfindDot t with
    | some j => some (j + 1)
    | none => if c == '.' then some 0 else none

/-- `Path.suffix` (CPython pathlib): the part of the name from its last dot,
empty when the dot is absent, leading, or trailing. -/
def pySuffix (name : String) : String :=
  match rfindDot name.data with
  | some i =>
    if 0 < i && i + 1 < name.data.length then String.mk (name.data.drop i) else ""
  | none => ""

/-- Python `str.lower` (ASCII case folding; only ASCII extensions occur). -/
def pyLower (s : String) : String := String.mk (s.data.map Char.toLower)

/-- `PurePath.relative_to`: succeeds exactly when `root`'s components are a
prefix of the path's components, yielding the remaining components. -/
def relative_to (p root : PyPath) : Option PyPath :=
  if root.isPrefixOf p then some (p.drop root.length) else none

/-- `as_posix()` of a relative path: components joined with `/`. -/
def asPosix (p : PyPath) : Text := (List.intersperse ['/'] (p.map String.data)).flatten

/-- `name.startswith('.')`. -/
def startsDot (s : String) : Bool := s.data.head? == some '.'

/-- A directory component the walker treats as skipped (cleanup.py:201). -/
def partSkipped (s : String) : Bool := SKIP_DIRS.contains s || startsDot s

/-- Some ancestor directory component of the relative path (all components but
the file name, `parts[:-1]`) is a skipped name or starts with a dot. -/
def skipAncestor (relParts : PyPath) : Bool := relParts.dropLast.any partSkipped

/-- The walker's extension filter: `item.suffix.lower() in TARGET_EXTENSIONS`. -/
def extTarget (relParts : PyPath) : Bool :=
  TARGET_EXTENSIONS.contains (pyLower (pySuffix (pyName relParts)))

/-- Outcome of one `read_text(encoding=e)` attempt. -/
inductive Attempt
  | ok (t : Text)
  | decodeErr
  | ioErr
deriving DecidableEq

inductive Encoding
  | utf8
  | latin1
deriving DecidableEq

/-- Per-file external behaviour: the outcome of each decode attempt, and
whether a write-back would succeed.  (CPython's latin-1 never fails to decode;
`latin1Read = decodeErr` models the code's all-candidates-failed branch.) -/
structure FileEnv where
  utf8Read : Attempt
  latin1Read : Attempt
  writeOk : Bool
deriving DecidableEq

/-- Log lines, by kind and offending path. -/
inductive LogEvent
  | readError (path : PyPath)
  | decodeFailure (path : PyPath)
  | noHeaderFormat (ext : String)
  | relPathError (path : PyPath)
  | skipHeader (rel : PyPath)
  | writeError (path : PyPath)
  | removedComments (rel : PyPath)
  | updatedHeader (rel : PyPath)
  | criticalError (rel : PyPath)
  | dirNotFound
deriving DecidableEq

/-- `read_file_content` (cleanup.py:53-70): try utf-8 then latin-1; a
UnicodeDecodeError moves to the next candidate, any other read error aborts;
if every candidate fails to decode, log and return no content. -/
def read_file_content (env : FileEnv) (file_path : PyPath) :
    Option (Text × Encoding) × List LogEvent :=
  match env.utf8Read with
  | .ok t => (some (t, .utf8), [])
  | .ioErr => (none, [.readError file_path])
  | .decodeErr =>
    match env.latin1Read with
    | .ok t => (some (t, .latin1), [])
    | .ioErr => (none, [.readError file_path])
    | .decodeErr => (none, [.decodeFailure file_path])

/-- `create_header` (cleanup.py:81-102): format the relative path into the
extension's template; on a `relative_to` failure with a registered template it
logs and falls back to the file name plus an error note (cleanup.py:92-99). -/
def create_header (file_path root_dir : PyPath) (file_extension : String) :
    Option Text × List LogEvent :=
  match relative_to file_path root_dir with
  | some rel =>
    match HEADER_COMMENT_FORMAT file_extension with
    | some fmt => (some (fmt (asPosix rel)), [])
    | none => (none, [.noHeaderFormat file_extension])
  | none =>
    match HEADER_COMMENT_FORMAT file_extension with
    | some fmt =>
      (some (fmt ((pyName file_path).data ++ " (relative path error)".data)),
        [.relPathError file_path])
    | none => (none, [.relPathError file_path])

/-- `write_file_content` (cleanup.py:105-112): returns whether the write
succeeded, logging on failure.  Content and encoding do not influence the
outcome oracle. -/
def write_file_content (env : FileEnv) (file_path : PyPath) (_content : Text)
    (_enc : Encoding) : Bool × List LogEvent :=
  if env.writeOk then (true, []) else (false, [.writeError file_path])

/-- Result of `process_file`: the return value, the attempted write-back (if
any), the computed `final_content` (none when the function returned before
computing it), and the log lines. -/
structure ProcResult where
  modified : Bool
  write : Option Text
  final : Option Text
  logs : List LogEvent
deriving DecidableEq

/-- `process_file` (cleanup.py:116-166).  The file is `root_dir ++ relParts`,
as invoked by the walker: every processed file lies under the root, so the
`relative_to` calls at cleanup.py:137 and 154 cannot raise here. -/
def process_file (env : FileEnv) (root_dir relParts : PyPath) : ProcResult :=
  let file_path := root_dir ++ relParts
  let file_extension := pyLower (pySuffix (pyName file_path))
  if file_extension ∈ TARGET_EXTENSIONS then
    match read_file_content env file_path with
    | (some (original_content, encoding), lg1) =>
      let cleaned := clean_content original_content file_extension
      let hc := create_header file_path root_dir file_extension
      let fl : Text × List LogEvent :=
        match hc.1 with
        | some header_comment => (header_comment ++ '\n' :: pyLstrip cleaned, [])
        | none => (cleaned, [.skipHeader relParts])
      let final_content := fl.1
      if final_content = original_content then
        ⟨false, none, some final_content, lg1 ++ hc.2 ++ fl.2⟩
      else
        let wr := write_file_content env file_path final_content encoding
        if wr.1 then
          let msg := if pyStrip cleaned ≠ pyStrip original_content
            then LogEvent.removedComments relParts else LogEvent.updatedHeader relParts
          ⟨true, some final_content, some final_content, lg1 ++ hc.2 ++ fl.2 ++ wr.2 ++ [msg]⟩
        else
          ⟨false, some final_content, some final_content, lg1 ++ hc.2 ++ fl.2 ++ wr.2⟩
    | (none, lg1) => ⟨false, none, none, lg1⟩
  else ⟨false, none, none, []⟩

/-- One enumerated `rglob` entry with its behaviour oracles.
`raisesUnexpected` models an unexpected exception escaping the `process_file`
invocation, caught by the walker's per-file `except` (cleanup.py:212-216). -/
structure Item where
  relParts : PyPath
  isDir : Bool
  isFile : Bool
  env : FileEnv
  raisesUnexpected : Bool
deriving DecidableEq

/-- Walker accumulator: the three counters plus the observable traces
(`process_file` invocations, attempted write-backs, log lines). -/
structure RunState where
  processed : Nat
  changed : Nat
  errors : Nat
  calls : List PyPath
  writes : List (PyPath × Text)
  logs : List LogEvent
deriving DecidableEq

def initRun : RunState := ⟨0, 0, 0, [], [], []⟩

/-- Walker body for one `rglob` item (cleanup.py:187-216): directories are
passed over, files under a skipped ancestor are filtered out, and remaining
files with a recognized (lower-cased) extension go to `process_file`. -/
def dirStep (root_dir : PyPath) (st : RunState) (it : Item) : RunState :=
  if it.isDir then st
  else if skipAncestor it.relParts then st
  else if it.isFile && extTarget it.relParts then
    let st1 := { st with processed := st.processed + 1, calls := st.calls ++ [it.relParts] }
    if it.raisesUnexpected then
      { st1 with errors := st1.errors + 1, logs := st1.logs ++ [.criticalError it.relParts] }
    else
      let r := process_file it.env root_dir it.relParts
      { st1 with
        changed := st1.changed + (if r.modified then 1 else 0),
        writes := st1.writes ++ (match r.write with
          | some w => [(it.relParts, w)]
          | none => []),
        logs := st1.logs ++ r.logs }
  else st

/-- `process_directory` (cleanup.py:169-225): fold the walker body over the
enumeration, starting from zeroed counters. -/
def process_directory (root_dir : PyPath) (items : List Item) : RunState :=
  items.foldl (dirStep root_dir) initRun

/-- Whether the walker passes an item to `process_file`. -/
def invokes (it : Item) : Bool :=
  !it.isDir && !skipAncestor it.relParts && (it.isFile && extTarget it.relParts)

/-- Result of `main`: the process exit status, fatal error output, how many
times the traversal ran, and the traversal's final state. -/
structure MainResult where
  exitCode : Nat
  errLogs : List LogEvent
  traversals : Nat
  run : RunState
deriving DecidableEq

/-- `main` (cleanup.py:229-260): exit 1 with an error if the root is not a
directory; otherwise run the traversal once and exit 0 (the per-file error
count never affects the exit status).  `rootIsDir` abstracts
`target_directory.is_dir()`. -/
def mainRun (rootIsDir : Bool) (root_dir : PyPath) (items : List Item) : MainResult :=
  if rootIsDir then ⟨0, [], 1, process_directory root_dir items⟩
  else ⟨1, [LogEvent.dirNotFound], 0, initRun⟩


/- ### Specification lemmas for the leftmost-match scanner `findSub` -/

theorem findSub_of_starts {p s : Text} (h : p.isPrefixOf s = true) :
    findSub p s = some 0 := by
  cases s <;> simp [findSub, h]

theorem findSub_nil_of_ne {p : Text} (hp : p ≠ []) : findSub p ([] : Text) = none := by
  cases p with
  | nil => exact absurd rfl hp
  | cons a t => simp [findSub]

theorem findSub_bound {p s : Text} {i : Nat} (h : findSub p s = some i) :
    i + p.length ≤ s.length := by
  induction s generalizing i with
  | nil =>
    by_cases hp : p.isPrefixOf ([] : Text)
    · simp [findSub, hp] at h
      have h2 : p = [] := List.prefix_nil.mp ((List.isPrefixOf_iff_prefix).mp hp)
      simp [← h, h2]
    · simp [findSub, hp] at h
  | cons c t ih =>
    by_cases hp : p.isPrefixOf (c :: t)
    · simp [findSub, hp] at h
      have h2 := ((List.isPrefixOf_iff_prefix).mp hp).length_le
      simp [← h]
      simpa using h2
    · simp [findSub, hp] at h
      obtain ⟨j, hj, rfl⟩ := h
      have := ih hj
      simp only [List.length_cons]
      omega

theorem findSub_found {p s : Text} {i : Nat} (h : findSub p s = some i) :
    p <+: s.drop i := by
  induction s generalizing i with
  | nil =>
    by_cases hp : p.isPrefixOf ([] : Text)
    · simp [findSub, hp] at h
      simpa [← h] using (List.isPrefixOf_iff_prefix).mp hp
    · simp [findSub, hp] at h
  | cons c t ih =>
    by_cases hp : p.isPrefixOf (c :: t)
    · simp [findSub, hp] at h
      simpa [← h] using (List.isPrefixOf_iff_prefix).mp hp
    · simp [findSub, hp] at h
      obtain ⟨j, hj, rfl⟩ := h
      simpa [List.drop_succ_cons] using ih hj

theorem findSub_minimal {p s : Text} {i : Nat} (h : findSub p s = some i) :
    ∀ k, k < i → ¬ p <+: s.drop k := by
  induction s generalizing i with
  | nil =>
    by_cases hp : p.isPrefixOf ([] : Text)
    · simp [findSub, hp] at h
      intro k hk
      omega
    · simp [findSub, hp] at h
  | cons c t ih =>
    by_cases hp : p.isPrefixOf (c :: t)
    · simp [findSub, hp] at h
      intro k hk
      omega
    · simp [findSub, hp] at h
      obtain ⟨j, hj, rfl⟩ := h
      intro k hk
      cases k with
      | zero =>
        intro hpre
        exact hp ((List.isPrefixOf_iff_prefix).mpr (by simpa using hpre))
      | succ k2 =>
        have := ih hj k2 (by omega)
        simpa [List.drop_succ_cons] using this

theorem findSub_none_nowhere {p s : Text} (h : findSub p s = none) :
    ∀ k, ¬ p <+: s.drop k := by
  induction s with
  | nil =>
    intro k hk
    by_cases hp : p.isPrefixOf ([] : Text)
    · simp [findSub, hp] at h
    · rw [List.drop_nil] at hk
      exact hp ((List.isPrefixOf_iff_prefix).mpr hk)
  | cons c t ih =>
    intro k hk
    by_cases hp : p.isPrefixOf (c :: t)
    · simp [findSub, hp] at h
    · simp [findSub, hp] at h
      cases k with
      | zero => exact hp ((List.isPrefixOf_iff_prefix).mpr (by simpa using hk))
      | succ k2 => exact ih h k2 (by simpa [List.drop_succ_cons] using hk)

theorem findSub_append_shift {p b : Text} (a : Text)
    (h : ∀ t, t <:+ a → t ≠ [] → ¬ p <+: (t ++ b)) :
    findSub p (a ++ b) = (findSub p b).map (· + a.length) := by
  induction a with
  | nil => cases hfb : findSub p b <;> simp [hfb]
  | cons x a2 ih =>
    have hx : ¬ p.isPrefixOf (x :: (a2 ++ b)) = true := by
      intro hp
      exact h (x :: a2) (List.suffix_refl _) (by simp)
        (by simpa using (List.isPrefixOf_iff_prefix).mp hp)
    rw [List.cons_append]
    rw [show findSub p (x :: (a2 ++ b))
        = if p.isPrefixOf (x :: (a2 ++ b)) then some 0
          else (findSub p (a2 ++ b)).map (· + 1) from rfl]
    rw [if_neg hx]
    rw [ih (fun t ht hne => h t (ht.trans (List.suffix_cons x a2)) hne)]
    cases findSub p b
    · simp
    · simp
      omega


theorem findSub_pos_length {p s : Text} {i : Nat} (hp : p ≠ [])
    (h : findSub p s = some i) : 0 < s.length := by
  have h1 := findSub_bound h
  have h2 : 0 < p.length := List.length_pos.mpr hp
  omega

/- ### Fuel does not matter once it reaches the input length -/

theorem subBlockF_congr {o c : Text} (ho : o ≠ []) :
    ∀ {n m : Nat} {s : Text}, s.length ≤ n → s.length ≤ m →
      subBlockF o c n s = subBlockF o c m s := by
  intro n
  induction n with
  | zero =>
    intro m s hn hm
    have hs : s = [] := List.eq_nil_of_length_eq_zero (by omega)
    subst hs
    cases m with
    | zero => rfl
    | succ m2 => simp [subBlockF, findSub_nil_of_ne ho]
  | succ n2 ih =>
    intro m s hn hm
    cases m with
    | zero =>
      have hs : s = [] := List.eq_nil_of_length_eq_zero (by omega)
      subst hs
      simp [subBlockF, findSub_nil_of_ne ho]
    | succ m2 =>
      show subBlockF o c (n2 + 1) s = subBlockF o c (m2 + 1) s
      simp only [subBlockF]
      split
      · rfl
      · rename_i i hfo
        split
        · rfl
        · rename_i j hfc
          have hb1 := findSub_bound hfo
          have hb2 := findSub_bound hfc
          have hop : 0 < o.length := List.length_pos.mpr ho
          have hlen : (s.drop (i + o.length + (j + c.length))).length ≤ n2 := by
            simp only [List.length_drop]
            omega
          have hlen2 : (s.drop (i + o.length + (j + c.length))).length ≤ m2 := by
            simp only [List.length_drop]
            omega
          simp only [ih hlen hlen2]

/-- Canonical unfolding of `subBlockRun`, free of fuel bookkeeping. -/
theorem subBlockRun_eq {o : Text} (ho : o ≠ []) (c s : Text) :
    subBlockRun o c s =
      match findSub o s with
      | none => (s, [])
      | some i =>
        match findSub c (s.drop (i + o.length)) with
        | none => (s, [])
        | some j =>
          let e := i + o.length + (j + c.length)
          let r := subBlockRun o c (s.drop e)
          (s.take i ++ r.1, (i, e) :: r.2.map (fun ab => (ab.1 + e, ab.2 + e))) := by
  unfold subBlockRun
  cases hl : s.length with
  | zero =>
    have hs : s = [] := List.eq_nil_of_length_eq_zero hl
    subst hs
    simp [subBlockF, findSub_nil_of_ne ho]
  | succ k =>
    simp only [subBlockF]
    split
    · rfl
    · rename_i i hfo
      split
      · rfl
      · rename_i j hfc
        have hb1 := findSub_bound hfo
        have hb2 := findSub_bound hfc
        have hop : 0 < o.length := List.length_pos.mpr ho
        have hlen : (s.drop (i + o.length + (j + c.length))).length ≤ k := by
          simp only [List.length_drop]
          omega
        simp only [subBlockF_congr ho hlen (Nat.le_refl _)]


/- ### Prefix, suffix and infix helpers -/

theorem pre_of_append_le {p t r : Text} (h : p <+: t ++ r) (hle : p.length ≤ t.length) :
    p <+: t := by
  have h2 := List.prefix_iff_eq_take.mp h
  rw [List.take_append_eq_append_take] at h2
  rw [show p.length - t.length = 0 from by omega] at h2
  simp only [List.take_zero, List.append_nil] at h2
  rw [h2]
  exact List.take_prefix _ _

theorem pre_flip_of_le {p t r : Text} (h : p <+: t ++ r) (hle : t.length ≤ p.length) :
    t <+: p := by
  apply List.prefix_iff_eq_take.mpr
  rw [List.prefix_iff_eq_take.mp h, List.take_take, Nat.min_eq_left hle, List.take_left]

theorem suffix_concat_split {t u : Text} {y : Char} (h : t <:+ u ++ [y]) (hne : t ≠ []) :
    ∃ t2, t = t2 ++ [y] ∧ t2 <:+ u := by
  obtain ⟨w, hw⟩ := h
  rcases List.eq_nil_or_concat t with rfl | ⟨t2, z, ht⟩
  · exact absurd rfl hne
  · subst ht
    rw [List.concat_eq_append, ← List.append_assoc] at hw
    obtain ⟨h1, h2⟩ := List.append_inj' hw (by simp)
    obtain rfl : z = y := by simpa using h2
    exact ⟨t2, by simp [List.concat_eq_append], ⟨w, h1⟩⟩

theorem infix_unpad {p l : Text} {x y : Char} (hx : x ∉ p) (hy : y ∉ p)
    (h : p <:+: x :: l ++ [y]) : p <:+: l := by
  rcases eq_or_ne p [] with rfl | hp
  · exact List.nil_infix
  obtain ⟨u, v, huv⟩ := h
  cases u with
  | nil =>
    simp only [List.nil_append] at huv
    cases p with
    | nil => exact absurd rfl hp
    | cons p0 pt =>
      rw [List.cons_append] at huv
      injection huv with h1 h2
      apply absurd _ hx
      rw [← h1]
      exact List.mem_cons_self p0 pt
  | cons u0 ut =>
    simp only [List.cons_append, List.append_assoc] at huv
    injection huv with h1 h2
    rcases List.eq_nil_or_concat v with rfl | ⟨v2, z, hv⟩
    · rw [List.append_nil] at h2
      rcases List.eq_nil_or_concat p with rfl | ⟨p2, z, hpz⟩
      · exact absurd rfl hp
      · subst hpz
        rw [List.concat_eq_append, ← List.append_assoc] at h2
        obtain ⟨h3, h4⟩ := List.append_inj' h2 (by simp)
        obtain rfl : z = y := by simpa using h4
        exact absurd (by simp) hy
    · subst hv
      rw [List.concat_eq_append, ← List.append_assoc, ← List.append_assoc] at h2
      obtain ⟨h3, h4⟩ := List.append_inj' h2 (by simp)
      exact ⟨ut, v2, by simpa [List.append_assoc] using h3⟩

/-- With `p` free of spaces and not occurring inside `rel`, the first
occurrence of `p` in `' ' :: rel ++ [' '] ++ (p ++ b)` is right after the
padding. -/
theorem findSub_pad {p rel b : Text} (hsp : ' ' ∉ p) (hrel : ¬ p <:+: rel) :
    findSub p ((' ' :: rel ++ [' ']) ++ (p ++ b)) = some (rel.length + 2) := by
  rw [findSub_append_shift (' ' :: rel ++ [' '])]
  · rw [findSub_of_starts (by simp [List.isPrefixOf_iff_prefix])]
    simp [List.length_append]
  · intro t ht hne hpre
    obtain ⟨t2, rfl, ht2⟩ := suffix_concat_split (show t <:+ (' ' :: rel) ++ [' '] from
      by simpa using ht) hne
    by_cases hcmp : p.length ≤ (t2 ++ [' ']).length
    · have hpt : p <+: t2 ++ [' '] := pre_of_append_le hpre hcmp
      have hinf : p <:+: ' ' :: rel ++ [' '] :=
        hpt.isInfix.trans (show (t2 ++ [' ']) <:+ ' ' :: rel ++ [' '] from ht).isInfix
      exact hrel (infix_unpad hsp hsp hinf)
    · have hle : (t2 ++ [' ']).length ≤ p.length := by omega
      have hflip := pre_flip_of_le hpre hle
      exact hsp (List.IsPrefix.mem (by simp) hflip)

/-- A well-formed header `o ++ " " ++ rel ++ " " ++ c` at the start of the
input is exactly the first deleted span of the block pass, which then runs on
the remainder alone. -/
theorem subBlock_header {o c rel b : Text} (ho : o ≠ []) (hsp : ' ' ∉ c)
    (hrel : ¬ c <:+: rel) :
    subBlock o c (o ++ ((' ' :: rel ++ [' ']) ++ (c ++ b))) = subBlock o c b := by
  have h1 : findSub o (o ++ ((' ' :: rel ++ [' ']) ++ (c ++ b))) = some 0 :=
    findSub_of_starts (by simp [List.isPrefixOf_iff_prefix])
  have h2 : findSub c ((o ++ ((' ' :: rel ++ [' ']) ++ (c ++ b))).drop (0 + o.length))
      = some (rel.length + 2) := by
    rw [Nat.zero_add, List.drop_left]
    exact findSub_pad hsp hrel
  have h3 : (o ++ ((' ' :: rel ++ [' ']) ++ (c ++ b))).drop
      (0 + o.length + (rel.length + 2 + c.length)) = b := by
    rw [show o ++ ((' ' :: rel ++ [' ']) ++ (c ++ b))
        = (o ++ (' ' :: rel ++ [' ']) ++ c) ++ b from by simp]
    rw [List.drop_left' (by simp; omega)]
  unfold subBlock
  rw [subBlockRun_eq ho c (o ++ ((' ' :: rel ++ [' ']) ++ (c ++ b))), h1]
  simp only [h2, h3, List.take_zero, List.nil_append]


/- ### The deleted spans of the block pass -/

/-- Delete from the current text an ascending list of disjoint spans, given
with positions absolute in the original input; `off` is the original position
of the current text's first character. -/
def removeSpansGo (off : Nat) : Text → List (Nat × Nat) → Text
  | s, [] => s
  | s, (a, e) :: rest => s.take (a - off) ++ removeSpansGo e (s.drop (e - off)) rest

/-- Delete from `s` an ascending list of disjoint spans given with absolute
half-open positions. -/
def removeSpans (s : Text) (sps : List (Nat × Nat)) : Text := removeSpansGo 0 s sps

theorem removeSpansGo_shift (d : Nat) :
    ∀ (sps : List (Nat × Nat)) (off : Nat) (s : Text),
      removeSpansGo (off + d) s (sps.map (fun ab => (ab.1 + d, ab.2 + d)))
        = removeSpansGo off s sps := by
  intro sps
  induction sps with
  | nil => intro off s; rfl
  | cons hd rest ih =>
    intro off s
    obtain ⟨a, e⟩ := hd
    simp only [List.map_cons, removeSpansGo]
    rw [show a + d - (off + d) = a - off from by omega,
      show e + d - (off + d) = e - off from by omega]
    rw [ih e]

/-- The block pass output is its input minus the deleted spans. -/
theorem subBlock_eq_remove {o : Text} (ho : o ≠ []) (c : Text) (s : Text) :
    subBlock o c s = removeSpans s (subBlockSpans o c s) := by
  have main : ∀ (n : Nat) (s2 : Text), s2.length ≤ n →
      subBlock o c s2 = removeSpans s2 (subBlockSpans o c s2) := by
    intro n
    induction n with
    | zero =>
      intro s2 hs
      have h0 : s2 = [] := List.eq_nil_of_length_eq_zero (by omega)
      subst h0
      simp [subBlock, subBlockSpans, subBlockRun_eq ho, findSub_nil_of_ne ho, removeSpans,
        removeSpansGo]
    | succ n2 ih =>
      intro s2 hs
      cases hfo : findSub o s2 with
      | none =>
        unfold subBlock subBlockSpans
        rw [subBlockRun_eq ho c s2]
        simp [hfo, removeSpans, removeSpansGo]
      | some i =>
        cases hfc : findSub c (s2.drop (i + o.length)) with
        | none =>
          unfold subBlock subBlockSpans
          rw [subBlockRun_eq ho c s2]
          simp [hfo, hfc, removeSpans, removeSpansGo]
        | some j =>
          have hb1 := findSub_bound hfo
          have hb2 := findSub_bound hfc
          have hop : 0 < o.length := List.length_pos.mpr ho
          have hlen : (s2.drop (i + o.length + (j + c.length))).length ≤ n2 := by
            simp only [List.length_drop]
            omega
          have ihe := ih (s2.drop (i + o.length + (j + c.length))) hlen
          unfold subBlock subBlockSpans
          rw [subBlockRun_eq ho c s2]
          simp only [hfo, hfc]
          unfold removeSpans
          simp only [removeSpansGo, Nat.sub_zero]
          have hsh := removeSpansGo_shift (i + o.length + (j + c.length))
            (subBlockRun o c (s2.drop (i + o.length + (j + c.length)))).2 0
            (s2.drop (i + o.length + (j + c.length)))
          rw [Nat.zero_add] at hsh
          rw [hsh]
          unfold subBlock subBlockSpans removeSpans at ihe
          rw [ihe]
  exact main s.length s (Nat.le_refl _)

/-- Every deleted span of the block pass is a full pattern match. -/
theorem spans_are_matches {o : Text} (ho : o ≠ []) (c : Text) (s : Text) :
    ∀ sp ∈ subBlockSpans o c s,
      ∃ mid, (s.drop sp.1).take (sp.2 - sp.1) = o ++ mid ++ c := by
  have main : ∀ (n : Nat) (s2 : Text), s2.length ≤ n → ∀ sp ∈ subBlockSpans o c s2,
      ∃ mid, (s2.drop sp.1).take (sp.2 - sp.1) = o ++ mid ++ c := by
    intro n
    induction n with
    | zero =>
      intro s2 hs sp hsp
      have h0 : s2 = [] := List.eq_nil_of_length_eq_zero (by omega)
      subst h0
      rw [subBlockSpans, subBlockRun_eq ho] at hsp
      simp [findSub_nil_of_ne ho] at hsp
    | succ n2 ih =>
      intro s2 hs sp hsp
      cases hfo : findSub o s2 with
      | none =>
        rw [subBlockSpans, subBlockRun_eq ho c s2] at hsp
        simp [hfo] at hsp
      | some i =>
        cases hfc : findSub c (s2.drop (i + o.length)) with
        | none =>
          rw [subBlockSpans, subBlockRun_eq ho c s2] at hsp
          simp [hfo, hfc] at hsp
        | some j =>
          have hb1 := findSub_bound hfo
          have hb2 := findSub_bound hfc
          have hop : 0 < o.length := List.length_pos.mpr ho
          rw [subBlockSpans, subBlockRun_eq ho c s2] at hsp
          simp only [hfo, hfc, List.mem_cons, List.mem_map] at hsp
          rcases hsp with rfl | ⟨ab, hab, rfl⟩
          · have hpre1 : o <+: s2.drop i := findSub_found hfo
            have hpre2 : c <+: (s2.drop (i + o.length)).drop j := findSub_found hfc
            obtain ⟨w1, hw1⟩ := hpre1
            obtain ⟨w2, hw2⟩ := hpre2
            have hw1b : w1 = s2.drop (i + o.length) := by
              have h5 := congrArg (List.drop o.length) hw1
              rwa [List.drop_left, List.drop_drop] at h5
            refine ⟨(s2.drop (i + o.length)).take j, ?_⟩
            simp only
            rw [show i + o.length + (j + c.length) - i = o.length + (j + c.length)
              from by omega]
            rw [← hw1, List.take_add, List.take_left, List.drop_left, List.take_add]
            rw [hw1b, ← hw2, List.take_left]
            simp [List.append_assoc]
          · have hlen : (s2.drop (i + o.length + (j + c.length))).length ≤ n2 := by
              simp only [List.length_drop]
              omega
            obtain ⟨mid, hmid⟩ := ih (s2.drop (i + o.length + (j + c.length))) hlen ab hab
            refine ⟨mid, ?_⟩
            simp only
            rw [show ab.2 + (i + o.length + (j + c.length))
                - (ab.1 + (i + o.length + (j + c.length))) = ab.2 - ab.1 from by omega]
            rw [show ab.1 + (i + o.length + (j + c.length))
                = (i + o.length + (j + c.length)) + ab.1 from by omega]
            rw [← List.drop_drop]
            exact hmid
  exact main s.length s (Nat.le_refl _)

/-- Every occurrence in the input of a substring that fully matches the block
pattern overlaps one of the deleted spans. -/
theorem match_overlaps_span {o : Text} (ho : o ≠ []) (c : Text) (s : Text) :
    ∀ i m mid, m = o ++ mid ++ c → m <+: s.drop i →
      ∃ sp ∈ subBlockSpans o c s, sp.1 < i + m.length ∧ i < sp.2 := by
  have main : ∀ (n : Nat) (s2 : Text), s2.length ≤ n → ∀ i m mid, m = o ++ mid ++ c →
      m <+: s2.drop i →
      ∃ sp ∈ subBlockSpans o c s2, sp.1 < i + m.length ∧ i < sp.2 := by
    intro n
    induction n with
    | zero =>
      intro s2 hs i m mid hm hocc
      exfalso
      have h0 : s2 = [] := List.eq_nil_of_length_eq_zero (by omega)
      subst h0
      rw [List.drop_nil] at hocc
      have hmn : m = [] := List.prefix_nil.mp hocc
      subst hm
      simp only [List.append_eq_nil] at hmn
      exact ho hmn.1.1
    | succ n2 ih =>
      intro s2 hs i m mid hm hocc
      have hopre : o <+: s2.drop i := by
        refine List.IsPrefix.trans ?_ hocc
        subst hm
        simp only [List.append_assoc]
        exact List.prefix_append o (mid ++ c)
      cases hfo : findSub o s2 with
      | none => exact absurd hopre (findSub_none_nowhere hfo i)
      | some i0 =>
        have hi0 : i0 ≤ i := by
          by_contra hlt
          exact findSub_minimal hfo i (by omega) hopre
        have hcpre : c <+: s2.drop (i + (o.length + mid.length)) := by
          obtain ⟨w, hw⟩ := hocc
          have h4 : (o ++ mid) ++ (c ++ w) = s2.drop i := by
            subst hm
            simpa [List.append_assoc] using hw
          have h5 := congrArg (List.drop (o.length + mid.length)) h4
          rw [List.drop_left' (by simp), List.drop_drop] at h5
          exact ⟨w, h5⟩
        cases hfc : findSub c (s2.drop (i0 + o.length)) with
        | none =>
          exfalso
          have hnw := findSub_none_nowhere hfc (i + (o.length + mid.length) - (i0 + o.length))
          rw [List.drop_drop] at hnw
          rw [show i0 + o.length + (i + (o.length + mid.length) - (i0 + o.length))
              = i + (o.length + mid.length) from by omega] at hnw
          exact hnw hcpre
        | some j =>
          rw [subBlockSpans, subBlockRun_eq ho c s2]
          simp only [hfo, hfc]
          by_cases hie : i < i0 + o.length + (j + c.length)
          · refine ⟨(i0, i0 + o.length + (j + c.length)), by simp, ?_, hie⟩
            have hop : 0 < o.length := List.length_pos.mpr ho
            have hmlen : 0 < m.length := by
              subst hm
              simp only [List.length_append]
              omega
            omega
          · have hb1 := findSub_bound hfo
            have hb2 := findSub_bound hfc
            have hop : 0 < o.length := List.length_pos.mpr ho
            have hlen : (s2.drop (i0 + o.length + (j + c.length))).length ≤ n2 := by
              simp only [List.length_drop]
              omega
            have hocc2 : m <+: (s2.drop (i0 + o.length + (j + c.length))).drop
                (i - (i0 + o.length + (j + c.length))) := by
              rw [List.drop_drop, show i0 + o.length + (j + c.length)
                  + (i - (i0 + o.length + (j + c.length))) = i from by omega]
              exact hocc
            obtain ⟨sp, hsp, h6, h7⟩ :=
              ih (s2.drop (i0 + o.length + (j + c.length))) hlen
                (i - (i0 + o.length + (j + c.length))) m mid hm hocc2
            refine ⟨(sp.1 + (i0 + o.length + (j + c.length)),
              sp.2 + (i0 + o.length + (j + c.length))), ?_, by omega, by omega⟩
            simp only [List.mem_cons, List.mem_map]
            exact Or.inr ⟨sp, hsp, rfl⟩
  exact main s.length s (Nat.le_refl _)


/- ### Evaluation lemmas for the per-file transform -/

theorem relative_to_append (root_dir rel : PyPath) :
    relative_to (root_dir ++ rel) root_dir = some rel := by
  unfold relative_to
  rw [if_pos (by simp [List.isPrefixOf_iff_prefix])]
  rw [List.drop_left]

theorem create_header_under {ext : String} {fmt : Text → Text} (root_dir rel : PyPath)
    (hfmt : HEADER_COMMENT_FORMAT ext = some fmt) :
    create_header (root_dir ++ rel) root_dir ext = (some (fmt (asPosix rel)), []) := by
  unfold create_header
  rw [relative_to_append, hfmt]

/-- Closed form of `process_file` when the read succeeds and a header template
exists for the extension. -/
theorem process_file_eval {env : FileEnv} {root_dir relParts : PyPath} {content : Text}
    {enc : Encoding} {lgr : List LogEvent} {fmt : Text → Text}
    (hread : read_file_content env (root_dir ++ relParts) = (some (content, enc), lgr))
    (hext : pyLower (pySuffix (pyName (root_dir ++ relParts))) ∈ TARGET_EXTENSIONS)
    (hfmt : HEADER_COMMENT_FORMAT (pyLower (pySuffix (pyName (root_dir ++ relParts))))
      = some fmt) :
    process_file env root_dir relParts =
      (let cleaned := clean_content content (pyLower (pySuffix (pyName (root_dir ++ relParts))))
       let final := fmt (asPosix relParts) ++ '\n' :: pyLstrip cleaned
       if final = content then (⟨false, none, some final, lgr⟩ : ProcResult)
       else if env.writeOk then
         ⟨true, some final, some final, lgr ++ [if pyStrip cleaned ≠ pyStrip content
           then LogEvent.removedComments relParts else LogEvent.updatedHeader relParts]⟩
       else ⟨false, some final, some final,
         lgr ++ [LogEvent.writeError (root_dir ++ relParts)]⟩) := by
  unfold process_file write_file_content
  cases hw : env.writeOk with
  | true =>
    simp only [if_pos hext, hread, create_header_under root_dir relParts hfmt, hw,
      List.append_nil, List.nil_append, if_true]
  | false =>
    simp only [if_pos hext, hread, create_header_under root_dir relParts hfmt, hw,
      List.append_nil, List.nil_append, if_false, Bool.false_eq_true]

/-- The computed `final_content` when the read succeeds. -/
theorem process_file_final {env : FileEnv} {root_dir relParts : PyPath} {content : Text}
    {enc : Encoding} {lgr : List LogEvent} {fmt : Text → Text}
    (hread : read_file_content env (root_dir ++ relParts) = (some (content, enc), lgr))
    (hext : pyLower (pySuffix (pyName (root_dir ++ relParts))) ∈ TARGET_EXTENSIONS)
    (hfmt : HEADER_COMMENT_FORMAT (pyLower (pySuffix (pyName (root_dir ++ relParts))))
      = some fmt) :
    (process_file env root_dir relParts).final
      = some (fmt (asPosix relParts) ++ '\n' :: pyLstrip (clean_content content
          (pyLower (pySuffix (pyName (root_dir ++ relParts)))))) := by
  rw [process_file_eval hread hext hfmt]
  simp only
  split
  · rfl
  · split
    · rfl
    · rfl

/- ### Walker fold lemmas -/

/-- The write-back attempts the walker performs for one item. -/
def itemWrites (root_dir : PyPath) (it : Item) : List (PyPath × Text) :=
  if invokes it && !it.raisesUnexpected then
    match (process_file it.env root_dir it.relParts).write with
    | some w => [(it.relParts, w)]
    | none => []
  else []

theorem dirStep_calls (root_dir : PyPath) (st : RunState) (it : Item) :
    (dirStep root_dir st it).calls
      = st.calls ++ (if invokes it then [it.relParts] else []) := by
  cases h1 : it.isDir <;> cases h2 : skipAncestor it.relParts <;>
    cases h3 : it.isFile <;> cases h4 : extTarget it.relParts <;>
      cases h5 : it.raisesUnexpected <;>
        simp [dirStep, invokes, h1, h2, h3, h4, h5]

theorem dirStep_writes (root_dir : PyPath) (st : RunState) (it : Item) :
    (dirStep root_dir st it).writes = st.writes ++ itemWrites root_dir it := by
  cases h1 : it.isDir <;> cases h2 : skipAncestor it.relParts <;>
    cases h3 : it.isFile <;> cases h4 : extTarget it.relParts <;>
      cases h5 : it.raisesUnexpected <;>
        simp [dirStep, invokes, itemWrites, h1, h2, h3, h4, h5]

theorem dirStep_errors (root_dir : PyPath) (st : RunState) (it : Item) :
    (dirStep root_dir st it).errors
      = st.errors + (if invokes it && it.raisesUnexpected then 1 else 0) := by
  cases h1 : it.isDir <;> cases h2 : skipAncestor it.relParts <;>
    cases h3 : it.isFile <;> cases h4 : extTarget it.relParts <;>
      cases h5 : it.raisesUnexpected <;>
        simp [dirStep, invokes, h1, h2, h3, h4, h5]

theorem run_calls (root_dir : PyPath) :
    ∀ (items : List Item) (st : RunState),
      (items.foldl (dirStep root_dir) st).calls
        = st.calls ++ (items.filter invokes).map (fun it => it.relParts) := by
  intro items
  induction items with
  | nil => intro st; simp
  | cons it rest ih =>
    intro st
    rw [List.foldl_cons, ih, dirStep_calls]
    cases h : invokes it <;> simp [h, List.filter_cons]

theorem run_writes (root_dir : PyPath) :
    ∀ (items : List Item) (st : RunState),
      (items.foldl (dirStep root_dir) st).writes
        = st.writes ++ (items.map (itemWrites root_dir)).flatten := by
  intro items
  induction items with
  | nil => intro st; simp
  | cons it rest ih =>
    intro st
    rw [List.foldl_cons, ih, dirStep_writes]
    simp

theorem run_errors (root_dir : PyPath) :
    ∀ (items : List Item) (st : RunState),
      (items.foldl (dirStep root_dir) st).errors
        = st.errors + items.countP (fun it => invokes it && it.raisesUnexpected) := by
  intro items
  induction items with
  | nil => intro st; simp
  | cons it rest ih =>
    intro st
    rw [List.foldl_cons, ih, dirStep_errors]
    rw [List.countP_cons]
    cases h : invokes it && it.raisesUnexpected
    · simp [h]
    · simp [h]
      omega


/- ### Walker branch helpers -/

theorem invokes_parts {it : Item} (h : invokes it = true) :
    it.isDir = false ∧ skipAncestor it.relParts = false ∧ it.isFile = true
      ∧ extTarget it.relParts = true := by
  unfold invokes at h
  simp only [Bool.and_eq_true, Bool.not_eq_true'] at h
  exact ⟨h.1.1, h.1.2, h.2.1, h.2.2⟩

theorem invokes_intro {it : Item} (h1 : it.isDir = false)
    (h2 : skipAncestor it.relParts = false) (h3 : it.isFile = true)
    (h4 : extTarget it.relParts = true) : invokes it = true := by
  unfold invokes
  simp [h1, h2, h3, h4]

theorem dirStep_not_invoked (root_dir : PyPath) (st : RunState) (it : Item)
    (h : invokes it = false) : dirStep root_dir st it = st := by
  cases h1 : it.isDir <;> cases h2 : skipAncestor it.relParts <;>
    cases h3 : it.isFile <;> cases h4 : extTarget it.relParts <;>
      simp_all [dirStep, invokes]

theorem dirStep_invoked (root_dir : PyPath) (st : RunState) (it : Item)
    (h : invokes it = true) (hr : it.raisesUnexpected = false) :
    dirStep root_dir st it =
      (let r := process_file it.env root_dir it.relParts
       { st with
         processed := st.processed + 1,
         calls := st.calls ++ [it.relParts],
         changed := st.changed + (if r.modified then 1 else 0),
         writes := st.writes ++ (match r.write with
           | some w => [(it.relParts, w)]
           | none => []),
         logs := st.logs ++ r.logs }) := by
  cases h1 : it.isDir <;> cases h2 : skipAncestor it.relParts <;>
    cases h3 : it.isFile <;> cases h4 : extTarget it.relParts <;>
      simp_all [dirStep, invokes, hr]

theorem extTarget_mem {rel : PyPath} (h : extTarget rel = true) :
    pyLower (pySuffix (pyName rel)) ∈ TARGET_EXTENSIONS := by
  unfold extTarget at h
  simpa using h

theorem extTarget_ne_nil {rel : PyPath} (h : extTarget rel = true) : rel ≠ [] := by
  intro h0
  subst h0
  exact absurd h (by decide)

theorem pyName_append (root_dir : PyPath) {rel : PyPath} (h : rel ≠ []) :
    pyName (root_dir ++ rel) = pyName rel := by
  unfold pyName
  rw [List.getLastD_eq_getLast?, List.getLastD_eq_getLast?,
    List.getLast?_append_of_ne_nil _ h]

/-- `process_file` when the read reports no content. -/
theorem process_file_read_fail {env : FileEnv} {root_dir relParts : PyPath}
    {lgr : List LogEvent}
    (hread : read_file_content env (root_dir ++ relParts) = (none, lgr))
    (hext : pyLower (pySuffix (pyName (root_dir ++ relParts))) ∈ TARGET_EXTENSIONS) :
    process_file env root_dir relParts = ⟨false, none, none, lgr⟩ := by
  unfold process_file
  simp only [if_pos hext, hread]


/- ### Claim C1 -/

/-- C1 counterexample: a run over a single `.js` file whose bytes fail both
decode attempts logs the decode failure and leaves the file unwritten, but the
run's error counter stays at zero — the claim's "error counter is incremented
for that file" is false on the code (cleanup.py increments `error_count` only
in the walker's `except` branch, which a decode failure never reaches). -/
theorem decode_failure_run_cex :
    (process_directory [] [⟨["f.js"], false, true,
        ⟨.decodeErr, .decodeErr, true⟩, false⟩]).errors = 0
    ∧ (process_directory [] [⟨["f.js"], false, true,
        ⟨.decodeErr, .decodeErr, true⟩, false⟩]).writes = []
    ∧ LogEvent.decodeFailure ["f.js"] ∈ (process_directory [] [⟨["f.js"], false, true,
        ⟨.decodeErr, .decodeErr, true⟩, false⟩]).logs := by decide

/-- C1 (amended): when every candidate codec fails on a file and no unexpected
exception occurs, the walker step leaves the file byte-for-byte unchanged (no
write-back is attempted) and, when the file was selected at all, emits the
decode-failure log line; but neither the error counter nor the changed counter
moves — the error counter counts only unexpected exceptions. -/
theorem decode_failure_step (root_dir : PyPath) (st : RunState) (it : Item)
    (h8 : it.env.utf8Read = .decodeErr) (h1 : it.env.latin1Read = .decodeErr)
    (hr : it.raisesUnexpected = false) :
    (dirStep root_dir st it).errors = st.errors
    ∧ (dirStep root_dir st it).changed = st.changed
    ∧ (dirStep root_dir st it).writes = st.writes
    ∧ (invokes it = true →
        LogEvent.decodeFailure (root_dir ++ it.relParts) ∈ (dirStep root_dir st it).logs) := by
  by_cases hinv : invokes it = true
  · have h4 := (invokes_parts hinv).2.2.2
    have hne := extTarget_ne_nil h4
    have hname := pyName_append root_dir hne
    have hext : pyLower (pySuffix (pyName (root_dir ++ it.relParts))) ∈ TARGET_EXTENSIONS := by
      rw [hname]
      exact extTarget_mem h4
    have hread : read_file_content it.env (root_dir ++ it.relParts)
        = (none, [.decodeFailure (root_dir ++ it.relParts)]) := by
      unfold read_file_content
      rw [h8, h1]
    have hpf := process_file_read_fail hread hext
    rw [dirStep_invoked root_dir st it hinv hr]
    simp [hpf]
  · rw [dirStep_not_invoked root_dir st it (by simpa using hinv)]
    simp [hinv]

/-- Witness for `decode_failure_step` at a concrete undecodable file. -/
theorem decode_failure_step_witness :
    (dirStep [] initRun ⟨["f.js"], false, true,
        ⟨.decodeErr, .decodeErr, true⟩, false⟩).errors = initRun.errors
    ∧ LogEvent.decodeFailure ["f.js"] ∈ (dirStep [] initRun ⟨["f.js"], false, true,
        ⟨.decodeErr, .decodeErr, true⟩, false⟩).logs := by
  have h := decode_failure_step [] initRun ⟨["f.js"], false, true,
    ⟨.decodeErr, .decodeErr, true⟩, false⟩ rfl rfl rfl
  exact ⟨h.1, by simpa using h.2.2.2 (by decide)⟩

/- ### Claim C2 -/

/-- C2 counterexample: a file path that cannot be expressed relative to the
root, with the registered `.js` template, makes `create_header` return the
fallback header built from the file name — not an absent result, contrary to
the claim's "returns None if the path cannot be made relative". -/
theorem create_header_fallback_cex :
    relative_to ["x", "a.js"] ["y"] = none
    ∧ (create_header ["x", "a.js"] ["y"] ".js").1
        = some "/* a.js (relative path error) */".data := by decide

/-- C2 (amended): `create_header` returns an absent result exactly when the
extension has no registered header template; a relative-path failure alone
yields the fallback header (file name plus an error note), never an absent
result while a template exists. -/
theorem create_header_none_iff (file_path root_dir : PyPath) (ext : String) :
    (create_header file_path root_dir ext).1 = none
      ↔ (HEADER_COMMENT_FORMAT ext).isNone = true := by
  unfold create_header
  cases hr : relative_to file_path root_dir <;>
    cases hf : HEADER_COMMENT_FORMAT ext <;> simp [hf]

/- ### Claim C5 -/

/-- C5: for the script kind, `foo(); // comment` strips to `foo();` followed
only by trailing whitespace; a line whose sole `//` lies inside
`"http://example.com"` is not truncated (it is returned unchanged); and the
line-comment trigger never fires on a `//` immediately preceded by a colon. -/
theorem js_line_comment_behaviour :
    clean_content "foo(); // comment".data ".js" = "foo(); ".data
    ∧ clean_content "var u = \"http://example.com\";".data ".js"
        = "var u = \"http://example.com\";".data
    ∧ ∀ (ch : Char) (rest : Text), jsLineTrigger (some ':') ch rest = false := by
  refine ⟨by decide, by decide, fun ch rest => ?_⟩
  simp [jsLineTrigger]

/- ### Claim C8 -/

/-- C8: with a root that is not a directory, the entry point exits with status
1, writes an error message, never runs the traversal and touches no file; with
a directory root it runs the traversal exactly once and exits with status 0,
whatever the per-file outcomes were. -/
theorem main_exit_behaviour (root_dir : PyPath) (items : List Item) :
    ((mainRun false root_dir items).exitCode = 1
      ∧ (mainRun false root_dir items).errLogs ≠ []
      ∧ (mainRun false root_dir items).traversals = 0
      ∧ (mainRun false root_dir items).run.writes = []
      ∧ (mainRun false root_dir items).run.calls = [])
    ∧ ((mainRun true root_dir items).exitCode = 0
      ∧ (mainRun true root_dir items).traversals = 1
      ∧ (mainRun true root_dir items).run = process_directory root_dir items) := by
  constructor
  · simp [mainRun, initRun]
  · simp [mainRun]


/- ### Walker claim helpers -/

theorem count_eq_one_of_nodup {α : Type} [BEq α] [LawfulBEq α] {a : α} {l : List α}
    (d : l.Nodup) (h : a ∈ l) : l.count a = 1 := by
  induction l with
  | nil => simp at h
  | cons b t ih =>
    rw [List.count_cons]
    rcases List.mem_cons.mp h with rfl | hmem
    · rw [List.count_eq_zero.mpr (List.nodup_cons.mp d).1]
      simp
    · have hne : ¬(a == b) = true := by
        intro hab
        exact (List.nodup_cons.mp d).1 (eq_of_beq hab ▸ hmem)
      have hne2 : ¬b = a := fun hba => hne (by simp [hba])
      rw [ih (List.nodup_cons.mp d).2 hmem]
      simp [hne, hne2]

theorem itemWrites_shape (root_dir : PyPath) (it : Item) :
    ∀ w ∈ itemWrites root_dir it, invokes it = true ∧ w.1 = it.relParts := by
  intro w hw
  unfold itemWrites at hw
  by_cases hi : invokes it && !it.raisesUnexpected
  · rw [if_pos hi] at hw
    simp only [Bool.and_eq_true] at hi
    cases hm : (process_file it.env root_dir it.relParts).write with
    | none =>
      rw [hm] at hw
      simp at hw
    | some w2 =>
      rw [hm] at hw
      simp only [List.mem_singleton] at hw
      subst hw
      exact ⟨hi.1, rfl⟩
  · rw [if_neg hi] at hw
    simp at hw

theorem fmt_of_target {ext : String} (h : ext ∈ TARGET_EXTENSIONS) :
    ∃ fmt, HEADER_COMMENT_FORMAT ext = some fmt := by
  unfold TARGET_EXTENSIONS at h
  simp only [List.mem_cons, List.not_mem_nil, or_false] at h
  rcases h with rfl | rfl | rfl <;> exact ⟨_, rfl⟩

/- ### Claim C7 -/

/-- C7: a file item with a skipped or dot-leading ancestor directory
component, or an unrecognized (lower-cased) extension, is never passed to
`process_file` — so never read — and never written; every other file item is
passed to `process_file` exactly once (the `rglob` enumeration yields distinct
paths, hence the `Nodup` hypothesis). -/
theorem walker_filter (root_dir : PyPath) (items : List Item)
    (hN : (items.map (fun it => it.relParts)).Nodup)
    (it : Item) (hit : it ∈ items) (hf : it.isFile = true) (hd : it.isDir = false) :
    ((skipAncestor it.relParts = true ∨ extTarget it.relParts = false) →
      it.relParts ∉ (process_directory root_dir items).calls
      ∧ ∀ w ∈ (process_directory root_dir items).writes, w.1 ≠ it.relParts)
    ∧ ((skipAncestor it.relParts = false ∧ extTarget it.relParts = true) →
      (process_directory root_dir items).calls.count it.relParts = 1) := by
  constructor
  · intro hex
    have hninv : invokes it = false := by
      unfold invokes
      rcases hex with h | h <;> simp [h, hd, hf]
    constructor
    · intro hmem
      unfold process_directory at hmem
      rw [run_calls] at hmem
      simp only [initRun, List.nil_append] at hmem
      obtain ⟨it2, hit2, heq⟩ := List.mem_map.mp hmem
      have hit2m : it2 ∈ items := List.mem_of_mem_filter hit2
      have hinv2 : invokes it2 = true := List.of_mem_filter hit2
      have heq2 : it2 = it := List.inj_on_of_nodup_map hN hit2m hit heq
      rw [heq2, hninv] at hinv2
      exact Bool.false_ne_true hinv2
    · intro w hw hweq
      unfold process_directory at hw
      rw [run_writes] at hw
      simp only [initRun, List.nil_append] at hw
      obtain ⟨l, hl, hwl⟩ := List.mem_flatten.mp hw
      obtain ⟨it2, hit2, rfl⟩ := List.mem_map.mp hl
      obtain ⟨hinv2, hw1⟩ := itemWrites_shape root_dir it2 w hwl
      have heq2 : it2 = it :=
        List.inj_on_of_nodup_map hN hit2 hit (by rw [← hw1, hweq])
      rw [heq2, hninv] at hinv2
      exact Bool.false_ne_true hinv2
  · rintro ⟨hskip, hext⟩
    have hinv : invokes it = true := invokes_intro hd hskip hf hext
    unfold process_directory
    rw [run_calls]
    simp only [initRun, List.nil_append]
    have hsub : ((items.filter invokes).map (fun it => it.relParts)).Sublist
        (items.map (fun it => it.relParts)) :=
      (List.filter_sublist items).map _
    have hnd : ((items.filter invokes).map (fun it => it.relParts)).Nodup :=
      hN.sublist hsub
    have hmem : it.relParts ∈ (items.filter invokes).map (fun it => it.relParts) :=
      List.mem_map.mpr ⟨it, List.mem_filter.mpr ⟨hit, hinv⟩, rfl⟩
    exact count_eq_one_of_nodup hnd hmem

/-- Witness for `walker_filter`: a `node_modules/lib.js` file is never called
nor written, and a sibling `ok.js` file is called exactly once. -/
theorem walker_filter_witness :
    (["node_modules", "lib.js"] ∉ (process_directory []
      [⟨["node_modules", "lib.js"], false, true, ⟨.ok ['x'], .decodeErr, true⟩, false⟩,
       ⟨["ok.js"], false, true, ⟨.ok ['x'], .decodeErr, true⟩, false⟩]).calls)
    ∧ (process_directory []
      [⟨["node_modules", "lib.js"], false, true, ⟨.ok ['x'], .decodeErr, true⟩, false⟩,
       ⟨["ok.js"], false, true, ⟨.ok ['x'], .decodeErr, true⟩, false⟩]).calls.count
        ["ok.js"] = 1 := by
  constructor
  · exact ((walker_filter []
      [⟨["node_modules", "lib.js"], false, true, ⟨.ok ['x'], .decodeErr, true⟩, false⟩,
       ⟨["ok.js"], false, true, ⟨.ok ['x'], .decodeErr, true⟩, false⟩]
      (by decide)
      ⟨["node_modules", "lib.js"], false, true, ⟨.ok ['x'], .decodeErr, true⟩, false⟩
      (by simp) rfl rfl).1 (Or.inl (by decide))).1
  · exact (walker_filter []
      [⟨["node_modules", "lib.js"], false, true, ⟨.ok ['x'], .decodeErr, true⟩, false⟩,
       ⟨["ok.js"], false, true, ⟨.ok ['x'], .decodeErr, true⟩, false⟩]
      (by decide)
      ⟨["ok.js"], false, true, ⟨.ok ['x'], .decodeErr, true⟩, false⟩
      (by simp) rfl rfl).2 ⟨by decide, by decide⟩

/- ### Claim C9 -/

/-- C9: extension matching is case-insensitive — a file item under no skipped
ancestor whose lower-cased suffix is a recognized extension is selected by the
walker and passed to `process_file`, and when its bytes decode, the transform
reaches its rewrite logic (a final content is computed rather than the
early-return taken). -/
theorem case_fold_selection (root_dir : PyPath) (items : List Item)
    (it : Item) (hit : it ∈ items) (hf : it.isFile = true) (hd : it.isDir = false)
    (hskip : skipAncestor it.relParts = false)
    (hext : extTarget it.relParts = true) :
    it.relParts ∈ (process_directory root_dir items).calls
    ∧ (∀ t : Text, it.env.utf8Read = .ok t →
        ((process_file it.env root_dir it.relParts).final).isSome = true) := by
  constructor
  · unfold process_directory
    rw [run_calls]
    simp only [initRun, List.nil_append]
    exact List.mem_map.mpr ⟨it, List.mem_filter.mpr
      ⟨hit, invokes_intro hd hskip hf hext⟩, rfl⟩
  · intro t ht
    have hne := extTarget_ne_nil hext
    have hname := pyName_append root_dir hne
    have hmem : pyLower (pySuffix (pyName (root_dir ++ it.relParts))) ∈ TARGET_EXTENSIONS := by
      rw [hname]
      exact extTarget_mem hext
    obtain ⟨fmt, hfmt⟩ := fmt_of_target hmem
    have hread : read_file_content it.env (root_dir ++ it.relParts)
        = (some (t, .utf8), []) := by
      unfold read_file_content
      rw [ht]
    rw [process_file_final hread hmem hfmt]
    rfl

/-- Witness for `case_fold_selection`: `PAGE.HTML` is selected and transformed. -/
theorem case_fold_selection_witness :
    ["PAGE.HTML"] ∈ (process_directory []
      [⟨["PAGE.HTML"], false, true, ⟨.ok ['x'], .decodeErr, true⟩, false⟩]).calls
    ∧ ((process_file ⟨.ok ['x'], .decodeErr, true⟩ [] ["PAGE.HTML"]).final).isSome
        = true := by
  have h := case_fold_selection []
    [⟨["PAGE.HTML"], false, true, ⟨.ok ['x'], .decodeErr, true⟩, false⟩]
    ⟨["PAGE.HTML"], false, true, ⟨.ok ['x'], .decodeErr, true⟩, false⟩
    (by simp) rfl rfl (by decide) (by decide)
  exact ⟨h.1, h.2 ['x'] rfl⟩

/- ### Claim C10 -/

/-- C10: the skip rules look only at ancestor directory components, never at
the file's own name — a file directly under the root whose own name begins
with a dot and carries a recognized extension is passed to `process_file`, and
every write-back the transform attempts is performed by the run (the file may
be rewritten). -/
theorem dotfile_processed (root_dir : PyPath) (items : List Item)
    (it : Item) (nm : String) (hit : it ∈ items) (hf : it.isFile = true)
    (hd : it.isDir = false) (hrel : it.relParts = [nm])
    (_hdot : nm.data.head? = some '.')
    (hext : extTarget it.relParts = true)
    (hr : it.raisesUnexpected = false) :
    it.relParts ∈ (process_directory root_dir items).calls
    ∧ (∀ w, (process_file it.env root_dir it.relParts).write = some w →
        (it.relParts, w) ∈ (process_directory root_dir items).writes) := by
  have hskip : skipAncestor it.relParts = false := by
    rw [hrel]
    rfl
  constructor
  · unfold process_directory
    rw [run_calls]
    simp only [initRun, List.nil_append]
    exact List.mem_map.mpr ⟨it, List.mem_filter.mpr
      ⟨hit, invokes_intro hd hskip hf hext⟩, rfl⟩
  · intro w hw
    unfold process_directory
    rw [run_writes]
    simp only [initRun, List.nil_append]
    apply List.mem_flatten.mpr
    refine ⟨itemWrites root_dir it, List.mem_map.mpr ⟨it, hit, rfl⟩, ?_⟩
    unfold itemWrites
    rw [if_pos (by simp [invokes_intro hd hskip hf hext, hr])]
    rw [hw]
    simp

/-- Witness for `dotfile_processed`: `.hidden.js` is selected and its
write-back (header prepended) lands in the run's writes. -/
theorem dotfile_processed_witness :
    [".hidden.js"] ∈ (process_directory []
      [⟨[".hidden.js"], false, true, ⟨.ok ['x'], .decodeErr, true⟩, false⟩]).calls
    ∧ ([".hidden.js"], "/* .hidden.js */\n".data ++ ['x']) ∈ (process_directory []
      [⟨[".hidden.js"], false, true, ⟨.ok ['x'], .decodeErr, true⟩, false⟩]).writes := by
  have h := dotfile_processed []
    [⟨[".hidden.js"], false, true, ⟨.ok ['x'], .decodeErr, true⟩, false⟩]
    ⟨[".hidden.js"], false, true, ⟨.ok ['x'], .decodeErr, true⟩, false⟩
    ".hidden.js" (by simp) rfl rfl rfl (by decide) (by decide) rfl
  exact ⟨h.1, h.2 ("/* .hidden.js */\n".data ++ ['x']) (by decide)⟩


/- ### Claim C4 -/

/-- C4: whenever the read succeeds for a recognized kind, the per-file
transform's final content is the kind's header template instantiated with the
forward-slash-joined relative path, then a single newline, then the
left-trimmed stripped body — the header is exactly line 1, with no blank line
before it and the body left-trimmed after it. -/
theorem header_line_one (env : FileEnv) (root_dir relParts : PyPath) (content : Text)
    (enc : Encoding) (lgr : List LogEvent) (fmt : Text → Text)
    (hread : read_file_content env (root_dir ++ relParts) = (some (content, enc), lgr))
    (hext : pyLower (pySuffix (pyName (root_dir ++ relParts))) ∈ TARGET_EXTENSIONS)
    (hfmt : HEADER_COMMENT_FORMAT (pyLower (pySuffix (pyName (root_dir ++ relParts))))
      = some fmt) :
    ∃ hdr : Text,
      (create_header (root_dir ++ relParts) root_dir
        (pyLower (pySuffix (pyName (root_dir ++ relParts))))).1 = some hdr
      ∧ hdr = fmt (asPosix relParts)
      ∧ (process_file env root_dir relParts).final
          = some (hdr ++ '\n' :: pyLstrip (clean_content content
              (pyLower (pySuffix (pyName (root_dir ++ relParts)))))) := by
  refine ⟨fmt (asPosix relParts), ?_, rfl, process_file_final hread hext hfmt⟩
  rw [create_header_under root_dir relParts hfmt]

/-- Witness for `header_line_one` on `r/a/b.html` with body `hi`. -/
theorem header_line_one_witness :
    ∃ hdr : Text,
      (create_header (["r"] ++ ["a", "b.html"]) ["r"]
        (pyLower (pySuffix (pyName (["r"] ++ ["a", "b.html"]))))).1 = some hdr
      ∧ hdr = (fun p => hOpen ++ [' '] ++ p ++ [' '] ++ hClose) (asPosix ["a", "b.html"])
      ∧ (process_file ⟨.ok "hi".data, .decodeErr, true⟩ ["r"] ["a", "b.html"]).final
          = some (hdr ++ '\n' :: pyLstrip (clean_content "hi".data
              (pyLower (pySuffix (pyName (["r"] ++ ["a", "b.html"])))))) :=
  header_line_one ⟨.ok "hi".data, .decodeErr, true⟩ ["r"] ["a", "b.html"] "hi".data
    .utf8 [] (fun p => hOpen ++ [' '] ++ p ++ [' '] ++ hClose) rfl (by decide) rfl

/- ### Claim C3 -/

/-- The closing delimiter of the kind's block-comment pattern. -/
def closeDelim (ext : String) : Option Text :=
  if ext = ".html" then some hClose
  else if ext = ".css" then some bClose
  else if ext = ".js" then some bClose
  else none

theorem infix_iff_drop_pre {p s : Text} : p <:+: s ↔ ∃ k, p <+: s.drop k := by
  constructor
  · rintro ⟨u, v, rfl⟩
    refine ⟨u.length, ?_⟩
    rw [List.append_assoc, List.drop_left]
    exact ⟨v, rfl⟩
  · rintro ⟨k, w, hw⟩
    refine ⟨s.take k, w, ?_⟩
    rw [List.append_assoc, hw, List.take_append_drop]

/-- C3 counterexample: `<!-- a.html -->\n\n<p>` starts with the correct header
line and the remaining content contains no comment span, yet the transform
left-trims the blank line: the output differs from the input and a write-back
occurs, refuting idempotence as claimed. -/
theorem idempotence_cex :
    (process_file ⟨.ok "<!-- a.html -->\n\n<p>".data, .decodeErr, true⟩ []
      ["a.html"]).write = some "<!-- a.html -->\n<p>".data
    ∧ "<!-- a.html -->\n<p>".data ≠ "<!-- a.html -->\n\n<p>".data
    ∧ (process_file ⟨.ok "<!-- a.html -->\n\n<p>".data, .decodeErr, true⟩ []
      ["a.html"]).modified = true := by decide

/-- C3 (amended): a readable file of a recognized kind whose content is
exactly the correct header line, a newline and a body — where the body is
left fixed by every one of the kind's comment passes, the body is unchanged
by left-trimming (it does not begin with whitespace), and the relative path
never contains the kind's closing delimiter — re-transforms to itself: the
final content equals the input, no write-back is attempted, and the file is
reported unmodified. -/
theorem idempotent_on_correct (env : FileEnv) (root_dir relParts : PyPath)
    (content body : Text) (enc : Encoding) (lgr : List LogEvent) (fmt : Text → Text)
    (hread : read_file_content env (root_dir ++ relParts) = (some (content, enc), lgr))
    (hext : pyLower (pySuffix (pyName (root_dir ++ relParts))) ∈ TARGET_EXTENSIONS)
    (hfmt : HEADER_COMMENT_FORMAT (pyLower (pySuffix (pyName (root_dir ++ relParts))))
      = some fmt)
    (hcontent : content = fmt (asPosix relParts) ++ '\n' :: body)
    (hfix : ∀ f ∈ (COMMENT_REGEX (pyLower (pySuffix (pyName
        (root_dir ++ relParts))))).getD [], f ('\n' :: body) = '\n' :: body)
    (hsafe : ∀ close, closeDelim (pyLower (pySuffix (pyName (root_dir ++ relParts))))
        = some close → findSub close (asPosix relParts) = none)
    (hlb : pyLstrip body = body) :
    (process_file env root_dir relParts).final = some content
    ∧ (process_file env root_dir relParts).write = none
    ∧ (process_file env root_dir relParts).modified = false := by
  have hext0 := hext
  have hclean : clean_content content
      (pyLower (pySuffix (pyName (root_dir ++ relParts)))) = '\n' :: body := by
    unfold TARGET_EXTENSIONS at hext
    simp only [List.mem_cons, List.not_mem_nil, or_false] at hext
    rcases hext with he | he | he
    · rw [he] at hfmt hfix hsafe ⊢
      have hfmt2 : fmt = (fun p => hOpen ++ [' '] ++ p ++ [' '] ++ hClose) := by
        have h0 : HEADER_COMMENT_FORMAT ".html"
            = some (fun p => hOpen ++ [' '] ++ p ++ [' '] ++ hClose) := rfl
        rw [h0] at hfmt
        exact (Option.some.inj hfmt).symm
      have hrelsafe : ¬ hClose <:+: asPosix relParts := by
        intro hinf
        obtain ⟨k, hk⟩ := infix_iff_drop_pre.mp hinf
        exact findSub_none_nowhere (hsafe hClose rfl) k hk
      have hsub : subBlock hOpen hClose ('\n' :: body) = '\n' :: body :=
        hfix (subBlock hOpen hClose)
          (by rw [show (COMMENT_REGEX ".html").getD ([])
                = [subBlock hOpen hClose] from rfl]; simp)
      unfold clean_content
      rw [show COMMENT_REGEX ".html" = some [subBlock hOpen hClose] from rfl]
      simp only [List.foldl_cons, List.foldl_nil]
      rw [hcontent, hfmt2]
      rw [show (fun p => hOpen ++ [' '] ++ p ++ [' '] ++ hClose) (asPosix relParts)
          ++ '\n' :: body
          = hOpen ++ ((' ' :: asPosix relParts ++ [' ']) ++ (hClose ++ '\n' :: body))
          from by simp]
      rw [subBlock_header (by decide) (by decide) hrelsafe]
      exact hsub
    · rw [he] at hfmt hfix hsafe ⊢
      have hfmt2 : fmt = (fun p => bOpen ++ [' '] ++ p ++ [' '] ++ bClose) := by
        have h0 : HEADER_COMMENT_FORMAT ".css"
            = some (fun p => bOpen ++ [' '] ++ p ++ [' '] ++ bClose) := rfl
        rw [h0] at hfmt
        exact (Option.some.inj hfmt).symm
      have hrelsafe : ¬ bClose <:+: asPosix relParts := by
        intro hinf
        obtain ⟨k, hk⟩ := infix_iff_drop_pre.mp hinf
        exact findSub_none_nowhere (hsafe bClose rfl) k hk
      have hsub : subBlock bOpen bClose ('\n' :: body) = '\n' :: body :=
        hfix (subBlock bOpen bClose)
          (by rw [show (COMMENT_REGEX ".css").getD ([])
                = [subBlock bOpen bClose] from rfl]; simp)
      unfold clean_content
      rw [show COMMENT_REGEX ".css" = some [subBlock bOpen bClose] from rfl]
      simp only [List.foldl_cons, List.foldl_nil]
      rw [hcontent, hfmt2]
      rw [show (fun p => bOpen ++ [' '] ++ p ++ [' '] ++ bClose) (asPosix relParts)
          ++ '\n' :: body
          = bOpen ++ ((' ' :: asPosix relParts ++ [' ']) ++ (bClose ++ '\n' :: body))
          from by simp]
      rw [subBlock_header (by decide) (by decide) hrelsafe]
      exact hsub
    · rw [he] at hfmt hfix hsafe ⊢
      have hfmt2 : fmt = (fun p => bOpen ++ [' '] ++ p ++ [' '] ++ bClose) := by
        have h0 : HEADER_COMMENT_FORMAT ".js"
            = some (fun p => bOpen ++ [' '] ++ p ++ [' '] ++ bClose) := rfl
        rw [h0] at hfmt
        exact (Option.some.inj hfmt).symm
      have hrelsafe : ¬ bClose <:+: asPosix relParts := by
        intro hinf
        obtain ⟨k, hk⟩ := infix_iff_drop_pre.mp hinf
        exact findSub_none_nowhere (hsafe bClose rfl) k hk
      have hsub : subBlock bOpen bClose ('\n' :: body) = '\n' :: body :=
        hfix (subBlock bOpen bClose)
          (by rw [show (COMMENT_REGEX ".js").getD ([])
                = [subBlock bOpen bClose, subLine] from rfl]; simp)
      have hline : subLine ('\n' :: body) = '\n' :: body :=
        hfix subLine
          (by rw [show (COMMENT_REGEX ".js").getD ([])
                = [subBlock bOpen bClose, subLine] from rfl]; simp)
      unfold clean_content
      rw [show COMMENT_REGEX ".js" = some [subBlock bOpen bClose, subLine] from rfl]
      simp only [List.foldl_cons, List.foldl_nil]
      rw [hcontent, hfmt2]
      rw [show (fun p => bOpen ++ [' '] ++ p ++ [' '] ++ bClose) (asPosix relParts)
          ++ '\n' :: body
          = bOpen ++ ((' ' :: asPosix relParts ++ [' ']) ++ (bClose ++ '\n' :: body))
          from by simp]
      rw [subBlock_header (by decide) (by decide) hrelsafe]
      rw [hsub]
      exact hline
  have hls : pyLstrip ('\n' :: body) = body := by
    unfold pyLstrip
    rw [List.dropWhile_cons, if_pos (by decide)]
    exact hlb
  have hfinal : fmt (asPosix relParts) ++ '\n' :: pyLstrip (clean_content content
      (pyLower (pySuffix (pyName (root_dir ++ relParts))))) = content := by
    rw [hclean, hls, hcontent]
  rw [process_file_eval hread hext0 hfmt]
  simp only [hfinal]
  simp

/-- Witness for `idempotent_on_correct`: `<!-- a.html -->\n<p>x</p>` is left
exactly as read, with no write-back. -/
theorem idempotent_on_correct_witness :
    (process_file ⟨.ok "<!-- a.html -->\n<p>x</p>".data, .decodeErr, true⟩ []
      ["a.html"]).final = some "<!-- a.html -->\n<p>x</p>".data
    ∧ (process_file ⟨.ok "<!-- a.html -->\n<p>x</p>".data, .decodeErr, true⟩ []
      ["a.html"]).write = none
    ∧ (process_file ⟨.ok "<!-- a.html -->\n<p>x</p>".data, .decodeErr, true⟩ []
      ["a.html"]).modified = false :=
  idempotent_on_correct ⟨.ok "<!-- a.html -->\n<p>x</p>".data, .decodeErr, true⟩
    [] ["a.html"] "<!-- a.html -->\n<p>x</p>".data "<p>x</p>".data .utf8 []
    (fun p => hOpen ++ [' '] ++ p ++ [' '] ++ hClose)
    rfl (by decide) rfl (by decide)
    (by
      intro f hf
      rw [show (COMMENT_REGEX (pyLower (pySuffix (pyName
          (([] : PyPath) ++ ["a.html"]))))).getD ([])
        = [subBlock hOpen hClose] from rfl] at hf
      simp only [List.mem_singleton] at hf
      subst hf
      decide)
    (by
      intro close hc
      rw [show closeDelim (pyLower (pySuffix (pyName (([] : PyPath) ++ ["a.html"]))))
          = some hClose from rfl] at hc
      cases hc
      decide)
    (by decide)


/- ### Claim C6 -/

/-- C6 counterexample: in `<!--z--><!-<!--q-->-z-->`, the substring
`<!--z-->` occurs in the input and fully matches the markup block pattern,
yet the stripped body is exactly `<!--z-->`: remnants on either side of the
two deleted spans concatenate into a fresh match, so the substring is not
absent from the output. -/
theorem block_strip_cex :
    (∃ mid, "<!--z-->".data = hOpen ++ mid ++ hClose)
    ∧ "<!--z-->".data <:+: "<!--z--><!-<!--q-->-z-->".data
    ∧ clean_content "<!--z--><!-<!--q-->-z-->".data ".html" = "<!--z-->".data := by
  refine ⟨⟨"z".data, by decide⟩, ⟨[], "<!-<!--q-->-z-->".data, by decide⟩, by decide⟩

/-- C6 (amended): for the markup and style kinds the stripped body is the
input minus the deleted spans, every deleted span is a full block-pattern
match, and every occurrence in the input of a substring fully matching the
pattern overlaps a deleted span.  (The claim's stronger "absent from the
stripped body" fails: deletion remnants can concatenate into a new matching
substring — see the counterexample.) -/
theorem block_strip_spans (s : Text) :
    (clean_content s ".html" = removeSpans s (subBlockSpans hOpen hClose s)
     ∧ (∀ sp ∈ subBlockSpans hOpen hClose s,
          ∃ mid, (s.drop sp.1).take (sp.2 - sp.1) = hOpen ++ mid ++ hClose)
     ∧ (∀ i m mid, m = hOpen ++ mid ++ hClose → m <+: s.drop i →
          ∃ sp ∈ subBlockSpans hOpen hClose s, sp.1 < i + m.length ∧ i < sp.2))
    ∧ (clean_content s ".css" = removeSpans s (subBlockSpans bOpen bClose s)
     ∧ (∀ sp ∈ subBlockSpans bOpen bClose s,
          ∃ mid, (s.drop sp.1).take (sp.2 - sp.1) = bOpen ++ mid ++ bClose)
     ∧ (∀ i m mid, m = bOpen ++ mid ++ bClose → m <+: s.drop i →
          ∃ sp ∈ subBlockSpans bOpen bClose s, sp.1 < i + m.length ∧ i < sp.2)) := by
  constructor
  · refine ⟨?_, spans_are_matches (by decide) hClose s,
      fun i m mid hm hocc => match_overlaps_span (by decide) hClose s i m mid hm hocc⟩
    rw [show clean_content s ".html" = subBlock hOpen hClose s from rfl]
    exact subBlock_eq_remove (by decide) hClose s
  · refine ⟨?_, spans_are_matches (by decide) bClose s,
      fun i m mid hm hocc => match_overlaps_span (by decide) bClose s i m mid hm hocc⟩
    rw [show clean_content s ".css" = subBlock bOpen bClose s from rfl]
    exact subBlock_eq_remove (by decide) bClose s

/-- Witness for `block_strip_spans`: the `<!--x-->` occurrence at position 0
of `<!--x-->y` overlaps a deleted span. -/
theorem block_strip_spans_witness :
    ∃ sp ∈ subBlockSpans hOpen hClose "<!--x-->y".data,
      sp.1 < 0 + "<!--x-->".data.length ∧ 0 < sp.2 :=
  (block_strip_spans "<!--x-->y".data).1.2.2 0 "<!--x-->".data "x".data (by decide)
    (by decide)

end Cleanup










